import Mathlib

/-!
Shallow embedding of the SAHI-clone tiling and detection-fusion pipeline:
`MakeCropsDetectThem.get_crops_xy` (overlapping-grid tiler),
`CropComponent.calculate_real_values` (coordinate remapping) and
`CombineDetection.combinate_detections` / `CombineDetection.nms`
(aggregation and non-maximum suppression).  Machine floats are modelled as
rationals, numpy/torch tensor operations as list operations, and Python
exceptions as `Except.error` results.
-/

/-- Python `int()` applied to a number: truncation toward zero. -/
def pyInt (q : ℚ) : ℤ := if 0 ≤ q then ⌊q⌋ else ⌈q⌉

/-- Python `round()` applied to a number: round half to even. -/
def pyRound (q : ℚ) : ℤ :=
  if q - ⌊q⌋ < 1/2 then ⌊q⌋
  else if 1/2 < q - ⌊q⌋ then ⌊q⌋ + 1
  else if 2 ∣ ⌊q⌋ then ⌊q⌋ else ⌊q⌋ + 1

/-- Python `round(x, 1)`: round to one decimal place, as used on confidences by
the intelligent sorter of `CombineDetection.nms`. -/
def round1 (q : ℚ) : ℚ := (pyRound (10 * q) : ℚ) / 10

/-- A bounding box in xyxy corner format, one entry of the `detected_xyxy` lists. -/
structure Box where
  x1 : ℚ
  y1 : ℚ
  x2 : ℚ
  y2 : ℚ
deriving DecidableEq, Inhabited

/-- Box area as computed in `nms`: `(x2 - x1) * (y2 - y1)`. -/
def area (b : Box) : ℚ := (b.x2 - b.x1) * (b.y2 - b.y1)

/-- Intersection area of two boxes with width and height clamped at 0,
as computed in the `nms` main loop. -/
def interArea (a b : Box) : ℚ :=
  max (min a.x2 b.x2 - max a.x1 b.x1) 0 * max (min a.y2 b.y2 - max a.y1 b.y1) 0

/-- Box-level match metric of `nms`: IoU for `"IOU"`, intersection over the
smaller area for `"IOS"`; the metric-name validation itself happens inside the
`nms` loop, so this function is only consulted for those two names.
The first argument plays the role of `boxes[idx]`, mirroring
`union = (rem_areas - inter) + areas[idx]` and `smaller = min(rem_areas, areas[idx])`. -/
def boxMetricValue (match_metric : String) (a b : Box) : ℚ :=
  if match_metric = "IOU" then interArea a b / ((area b - interArea a b) + area a)
  else interArea a b / min (area b) (area a)

/-- A binary instance mask, modelled as a row-major grid of booleans. -/
abbrev Mask := List (List Bool)

/-- Number of true pixels of a mask (`mask.sum()`). -/
def maskSum (m : Mask) : ℕ := (m.map fun r => r.count true).sum

/-- Number of pixels true in both masks (`np.logical_and(mask, other).sum()`). -/
def maskInter (a b : Mask) : ℕ :=
  (List.zipWith (fun r s => (List.zipWith (fun x y => x && y) r s).count true) a b).sum

/-- Number of pixels true in either mask (`np.logical_or(mask, other).sum()`). -/
def maskUnion (a b : Mask) : ℕ :=
  (List.zipWith (fun r s => (List.zipWith (fun x y => x || y) r s).count true) a b).sum

/-- Pixel-level IoU of two masks, 0 when the union is empty, as in
`CombineDetection.intersect_over_union`. -/
def maskIoU (a b : Mask) : ℚ :=
  if maskUnion a b ≠ 0 then (maskInter a b : ℚ) / (maskUnion a b : ℚ) else 0

/-- Pixel-level intersection over the smaller mask area, 0 when the smaller
area is empty, as in `CombineDetection.intersect_over_smaller`. -/
def maskIoS (a b : Mask) : ℚ :=
  if min (maskSum a) (maskSum b) ≠ 0 then
    (maskInter a b : ℚ) / ((min (maskSum a) (maskSum b) : ℕ) : ℚ)
  else 0

/-- CombineDetection.intersect_over_union: IoU scores of one mask against a list. -/
def intersect_over_union (mask : Mask) (masks_list : List Mask) : List ℚ :=
  masks_list.map fun other => maskIoU mask other

/-- CombineDetection.intersect_over_smaller: IoS scores of one mask against a list. -/
def intersect_over_smaller (mask : Mask) (masks_list : List Mask) : List ℚ :=
  masks_list.map fun other => maskIoS mask other

/-- Mask-level metric used in the mask-aware branch of `nms`. -/
def maskMetricValue (match_metric : String) (a b : Mask) : ℚ :=
  if match_metric = "IOU" then maskIoU a b else maskIoS a b

/-- Strict lexicographic comparison of sort keys (Python tuple comparison for
the `(round(confidence, 1), area)` pairs). -/
def keyLt (a b : ℚ × ℚ) : Bool := decide (a.1 < b.1 ∨ (a.1 = b.1 ∧ a.2 < b.2))

/-- Insert an index into a key-ascending list, after any equal keys
(the stability guarantee of Python `sorted`). -/
def insertAsc (key : ℕ → ℚ × ℚ) (i : ℕ) : List ℕ → List ℕ
  | [] => [i]
  | j :: rest => if keyLt (key i) (key j) then i :: j :: rest else j :: insertAsc key i rest

/-- Stable ascending argsort of the indices `0, ..., n-1` by a key function. -/
def sortIdx (key : ℕ → ℚ × ℚ) (n : ℕ) : List ℕ :=
  (List.range n).foldl (fun acc i => insertAsc key i acc) []

/-- The ascending priority order built by `nms`: argsort by
`(round(confidence, 1), area)` when `intelligent_sorter` is set, else argsort
by confidence alone (torch `argsort`, modelled as a stable sort). -/
def nmsOrder (intelligent_sorter : Bool) (confidences : List ℚ) (boxes : List Box) : List ℕ :=
  if intelligent_sorter then
    sortIdx (fun k => (round1 (confidences.getD k 0), area (boxes.getD k default)))
      confidences.length
  else
    sortIdx (fun k => (confidences.getD k 0, 0)) confidences.length

/-- One filtering round of the `nms` while-loop: given the popped index `idx`
and the remaining pending indices `rest`, drop the suppressed indices.  With
masks present and at least one remaining box positively overlapping `idx`, an
index is dropped when its box metric is positive and its mask metric exceeds
the threshold; otherwise indices with box metric at or above the threshold are
dropped. -/
def filterStep (match_metric : String) (thr : ℚ) (boxes : List Box)
    (masks : Option (List Mask)) (idx : ℕ) (rest : List ℕ) : List ℕ :=
  match masks with
  | some ms =>
    if rest.any (fun j =>
        decide (0 < boxMetricValue match_metric (boxes.getD idx default) (boxes.getD j default))) then
      rest.filter (fun j =>
        !(decide (0 < boxMetricValue match_metric (boxes.getD idx default) (boxes.getD j default)) &&
          decide (thr < maskMetricValue match_metric (ms.getD idx default) (ms.getD j default))))
    else
      rest.filter (fun j =>
        decide (boxMetricValue match_metric (boxes.getD idx default) (boxes.getD j default) < thr))
  | none =>
    rest.filter (fun j =>
      decide (boxMetricValue match_metric (boxes.getD idx default) (boxes.getD j default) < thr))

/-- Fuel-indexed `nms` while-loop.  The pending list is consumed head-first
(the head is the highest-priority index, mirroring `order[-1]` of the source);
the fuel only serves to make the recursion structural and is irrelevant as
long as it is at least the list length. -/
def nmsRounds (match_metric : String) (thr : ℚ) (boxes : List Box)
    (masks : Option (List Mask)) : ℕ → List ℕ → Except String (List ℕ)
  | 0, _ => .ok []
  | _ + 1, [] => .ok []
  | fuel + 1, idx :: rest =>
    if rest = [] then .ok [idx]
    else if match_metric = "IOU" ∨ match_metric = "IOS" then
      Except.map (fun kept => idx :: kept)
        (nmsRounds match_metric thr boxes masks fuel
          (filterStep match_metric thr boxes masks idx rest))
    else .error "Unknown matching metric"

/-- The `nms` while-loop on a pending list whose head is the highest-priority
index. -/
def nmsLoop (match_metric : String) (thr : ℚ) (boxes : List Box)
    (masks : Option (List Mask)) (l : List ℕ) : Except String (List ℕ) :=
  nmsRounds match_metric thr boxes masks l.length l

/-- CombineDetection.nms: empty box list short-circuits to an empty result;
otherwise the greedy suppression loop runs over the priority order (processed
from its highest-priority end).  Raising `ValueError` is modelled as
`Except.error`. -/
def nms (confidences : List ℚ) (boxes : List Box) (match_metric : String)
    (nms_threshold : ℚ) (masks : Option (List Mask)) (intelligent_sorter : Bool) :
    Except String (List ℕ) :=
  if boxes.length = 0 then .ok []
  else nmsLoop match_metric nms_threshold boxes masks
    (nmsOrder intelligent_sorter confidences boxes).reverse

/-- One crop's bookkeeping record produced by `get_crops_xy`: its 1-based
ordinal (`number_of_crop`, the running `count`) and top-left offset. -/
structure CropRec where
  number_of_crop : ℕ
  x_start : ℤ
  y_start : ℤ
deriving DecidableEq, Inhabited

/-- The per-axis tile count of `get_crops_xy`:
`int((image_dim - tile_dim) / (tile_dim * cross_koef)) + 1` with
`cross_koef = 1 - overlap / 100`. -/
def steps_count (image_dim tile_dim : ℤ) (overlap : ℚ) : ℤ :=
  pyInt (((image_dim - tile_dim : ℤ) : ℚ) / ((tile_dim : ℚ) * (1 - overlap / 100))) + 1

/-- The per-axis canvas size of `get_crops_xy`:
`round((steps - 1) * (tile_dim * cross_koef) + tile_dim)`. -/
def canvas_dim (steps tile_dim : ℤ) (overlap : ℚ) : ℤ :=
  pyRound (((steps - 1 : ℤ) : ℚ) * ((tile_dim : ℚ) * (1 - overlap / 100)) + (tile_dim : ℚ))

/-- The body of the inner (column) loop of `get_crops_xy`: compute the crop
offsets by Python `int()` truncation, skip the tile when it exceeds the canvas
(the source prints a diagnostic and continues), else append the crop numbered
by the running count. -/
def crop_step (shape_x shape_y : ℤ) (cross_koef_x cross_koef_y : ℚ) (x_new y_new : ℤ)
    (i : ℕ) (acc2 : List CropRec) (j : ℕ) : List CropRec :=
  let x_start := pyInt ((shape_x : ℚ) * (j : ℚ) * cross_koef_x)
  let y_start := pyInt ((shape_y : ℚ) * (i : ℚ) * cross_koef_y)
  if x_new < x_start + shape_x then acc2
  else if y_new < y_start + shape_y then acc2
  else acc2 ++ [⟨acc2.length + 1, x_start, y_start⟩]

/-- One full row of the tiling loop of `get_crops_xy`. -/
def crop_row (shape_x shape_y : ℤ) (cross_koef_x cross_koef_y : ℚ) (x_new y_new : ℤ)
    (x_steps : ℤ) (acc : List CropRec) (i : ℕ) : List CropRec :=
  (List.range x_steps.toNat).foldl
    (crop_step shape_x shape_y cross_koef_x cross_koef_y x_new y_new i) acc

/-- MakeCropsDetectThem.get_crops_xy restricted to its coordinate bookkeeping:
row-major generation of crop offsets `(int(shape_x * j * cross_koef_x),
int(shape_y * i * cross_koef_y))`, skipping any tile exceeding the canvas and
numbering the appended crops by the running count. -/
def get_crops_xy (h w shape_x shape_y : ℤ) (overlap_x overlap_y : ℚ) : List CropRec :=
  let cross_koef_x : ℚ := 1 - overlap_x / 100
  let cross_koef_y : ℚ := 1 - overlap_y / 100
  let y_steps := steps_count h shape_y overlap_y
  let x_steps := steps_count w shape_x overlap_x
  let y_new := canvas_dim y_steps shape_y overlap_y
  let x_new := canvas_dim x_steps shape_x overlap_x
  (List.range y_steps.toNat).foldl
    (crop_row shape_x shape_y cross_koef_x cross_koef_y x_new y_new x_steps) []

/-- An integer xyxy box, as produced by `pred.boxes.xyxy.cpu().int().tolist()`. -/
abbrev BoxI := ℤ × ℤ × ℤ × ℤ

/-- CropComponent.calculate_real_values on the box list: each local box gets
the additive offset `[x_start, y_start, x_start, y_start]`. -/
def calculate_real_values (detected_xyxy : List BoxI) (x_start y_start : ℤ) : List BoxI :=
  detected_xyxy.map fun b => (b.1 + x_start, b.2.1 + y_start, b.2.2.1 + x_start, b.2.2.2 + y_start)

/-- The detection-result fields of a `CropComponent`; each is `None` after
construction until (and unless) something stores results into it. -/
structure CropDet where
  detected_conf : Option (List ℚ)
  detected_xyxy_real : Option (List BoxI)
  detected_masks_real : Option (List Mask)
  detected_cls : Option (List ℤ)

/-- Python `list.extend(x)`: appends the elements of `x`, raising `TypeError`
when `x` is `None`. -/
def pyExtend {α : Type} (acc : List α) (x : Option (List α)) : Except String (List α) :=
  match x with
  | none => .error "TypeError: argument of type NoneType is not iterable"
  | some l => .ok (acc ++ l)

/-- One iteration of the `combinate_detections` loop: extend the four
accumulator lists with one crop's detection fields, in source order
(confidences, boxes, masks, classes), stopping at the first `None` field. -/
def combinate_step (acc : List ℚ × List BoxI × List Mask × List ℤ) (crop : CropDet) :
    Except String (List ℚ × List BoxI × List Mask × List ℤ) :=
  match pyExtend acc.1 crop.detected_conf with
  | .error e => .error e
  | .ok conf =>
    match pyExtend acc.2.1 crop.detected_xyxy_real with
    | .error e => .error e
    | .ok xyxy =>
      match pyExtend acc.2.2.1 crop.detected_masks_real with
      | .error e => .error e
      | .ok masks =>
        match pyExtend acc.2.2.2 crop.detected_cls with
        | .error e => .error e
        | .ok cls => .ok (conf, xyxy, masks, cls)

/-- The `for crop in crops` loop of `combinate_detections`. -/
def combinate_fold (acc : List ℚ × List BoxI × List Mask × List ℤ) :
    List CropDet → Except String (List ℚ × List BoxI × List Mask × List ℤ)
  | [] => .ok acc
  | crop :: rest =>
    match combinate_step acc crop with
    | .error e => .error e
    | .ok acc2 => combinate_fold acc2 rest

/-- CombineDetection.combinate_detections: extend the four accumulator lists
with each crop's detection fields, in source order. -/
def combinate_detections (crops : List CropDet) :
    Except String (List ℚ × List BoxI × List Mask × List ℤ) :=
  combinate_fold ([], [], [], []) crops

/-- Auxiliary string fact used to reduce the metric dispatch for `"IOS"`. -/
theorem ios_ne_iou : ("IOS" = "IOU") = False := by decide

/-- The box metric is symmetric in its two boxes, for any metric name. -/
theorem boxMetricValue_comm (m : String) (a b : Box) :
    boxMetricValue m a b = boxMetricValue m b a := by
  have hinter : interArea a b = interArea b a := by
    rw [interArea, interArea, min_comm a.x2, max_comm a.x1, min_comm a.y2, max_comm a.y1]
  rw [boxMetricValue, boxMetricValue, hinter]
  by_cases hm : m = "IOU"
  · rw [if_pos hm, if_pos hm]
    have : (area b - interArea b a) + area a = (area a - interArea b a) + area b := by ring
    rw [this]
  · rw [if_neg hm, if_neg hm, min_comm]

/-- Pixel intersection count is symmetric. -/
theorem maskInter_comm (a b : Mask) : maskInter a b = maskInter b a := by
  rw [maskInter, maskInter]
  congr 1
  apply List.zipWith_comm_of_comm
  intro r s
  congr 1
  apply List.zipWith_comm_of_comm
  intro x y
  exact Bool.and_comm x y

/-- Pixel union count is symmetric. -/
theorem maskUnion_comm (a b : Mask) : maskUnion a b = maskUnion b a := by
  rw [maskUnion, maskUnion]
  congr 1
  apply List.zipWith_comm_of_comm
  intro r s
  congr 1
  apply List.zipWith_comm_of_comm
  intro x y
  exact Bool.or_comm x y

/-- The mask metric is symmetric in its two masks, for any metric name. -/
theorem maskMetricValue_comm (m : String) (a b : Mask) :
    maskMetricValue m a b = maskMetricValue m b a := by
  rw [maskMetricValue, maskMetricValue, maskIoU, maskIoU, maskIoS, maskIoS,
    maskInter_comm a b, maskUnion_comm a b, min_comm (maskSum a)]

/-- Each filtering round returns a sublist of the pending indices. -/
theorem filterStep_sublist (m : String) (thr : ℚ) (boxes : List Box)
    (masks : Option (List Mask)) (idx : ℕ) (rest : List ℕ) :
    (filterStep m thr boxes masks idx rest).Sublist rest := by
  cases masks with
  | none => exact List.filter_sublist rest
  | some ms =>
    simp only [filterStep]
    split
    · exact List.filter_sublist rest
    · exact List.filter_sublist rest

/-- Each filtering round does not lengthen the pending list. -/
theorem filterStep_length_le (m : String) (thr : ℚ) (boxes : List Box)
    (masks : Option (List Mask)) (idx : ℕ) (rest : List ℕ) :
    (filterStep m thr boxes masks idx rest).length ≤ rest.length :=
  (filterStep_sublist m thr boxes masks idx rest).length_le

/-- The fuel argument of `nmsRounds` is irrelevant as soon as it bounds the
pending-list length. -/
theorem nmsRounds_congr (m : String) (thr : ℚ) (boxes : List Box)
    (masks : Option (List Mask)) :
    ∀ fuel₁ fuel₂ l, l.length ≤ fuel₁ → l.length ≤ fuel₂ →
      nmsRounds m thr boxes masks fuel₁ l = nmsRounds m thr boxes masks fuel₂ l := by
  intro fuel₁
  induction fuel₁ with
  | zero =>
    intro fuel₂ l h1 _
    have : l = [] := List.length_eq_zero.mp (Nat.le_zero.mp h1)
    subst this
    match fuel₂ with
    | 0 => rfl
    | _ + 1 => rfl
  | succ n ih =>
    intro fuel₂ l h1 h2
    match l with
    | [] =>
      match fuel₂ with
      | 0 => rfl
      | _ + 1 => rfl
    | idx :: rest =>
      match fuel₂ with
      | 0 => exact absurd h2 (by simp)
      | f + 1 =>
        rw [nmsRounds, nmsRounds]
        by_cases hr : rest = []
        · rw [if_pos hr, if_pos hr]
        · rw [if_neg hr, if_neg hr]
          by_cases hm : m = "IOU" ∨ m = "IOS"
          · rw [if_pos hm, if_pos hm]
            have hlen := filterStep_length_le m thr boxes masks idx rest
            have hn : (filterStep m thr boxes masks idx rest).length ≤ n :=
              le_trans hlen (Nat.lt_succ_iff.mp (lt_of_lt_of_le (Nat.lt_succ_self _) h1))
            have hf : (filterStep m thr boxes masks idx rest).length ≤ f :=
              le_trans hlen (Nat.lt_succ_iff.mp (lt_of_lt_of_le (Nat.lt_succ_self _) h2))
            rw [ih f _ hn hf]
          · rw [if_neg hm, if_neg hm]

/-- The `nms` loop on an empty pending list. -/
theorem nmsLoop_nil (m : String) (thr : ℚ) (boxes : List Box)
    (masks : Option (List Mask)) : nmsLoop m thr boxes masks [] = .ok [] := rfl

/-- One unfolding of the `nms` loop: pop the head, and unless it was the last
pending index (or the metric name is invalid), recurse on the filtered rest. -/
theorem nmsLoop_cons (m : String) (thr : ℚ) (boxes : List Box)
    (masks : Option (List Mask)) (idx : ℕ) (rest : List ℕ) :
    nmsLoop m thr boxes masks (idx :: rest) =
      if rest = [] then .ok [idx]
      else if m = "IOU" ∨ m = "IOS" then
        Except.map (fun kept => idx :: kept)
          (nmsLoop m thr boxes masks (filterStep m thr boxes masks idx rest))
      else .error "Unknown matching metric" := by
  rw [nmsLoop, nmsLoop, List.length_cons, nmsRounds]
  by_cases hr : rest = []
  · rw [if_pos hr, if_pos hr]
  · rw [if_neg hr, if_neg hr]
    by_cases hm : m = "IOU" ∨ m = "IOS"
    · rw [if_pos hm, if_pos hm,
        nmsRounds_congr m thr boxes masks rest.length _ _
          (filterStep_length_le m thr boxes masks idx rest) (le_refl _)]
    · rw [if_neg hm, if_neg hm]

/-- Stable insertion permutes to a cons. -/
theorem insertAsc_perm (key : ℕ → ℚ × ℚ) (i : ℕ) :
    ∀ l : List ℕ, (insertAsc key i l).Perm (i :: l) := by
  intro l
  induction l with
  | nil => simp [insertAsc]
  | cons j rest ih =>
    rw [insertAsc]
    by_cases h : keyLt (key i) (key j) = true
    · rw [if_pos h]
    · rw [if_neg h]
      exact (ih.cons j).trans (List.Perm.swap i j rest)

/-- The insertion-sort fold permutes to appending the pending elements. -/
theorem sortIdx_fold_perm (key : ℕ → ℚ × ℚ) :
    ∀ (l : List ℕ) (acc : List ℕ),
      (l.foldl (fun a i => insertAsc key i a) acc).Perm (l ++ acc) := by
  intro l
  induction l with
  | nil => intro acc; simp
  | cons i rest ih =>
    intro acc
    rw [List.foldl_cons]
    refine (ih (insertAsc key i acc)).trans ?_
    refine (List.Perm.append_left rest (insertAsc_perm key i acc)).trans ?_
    exact List.perm_middle

/-- The stable argsort is a permutation of the index range. -/
theorem sortIdx_perm (key : ℕ → ℚ × ℚ) (n : ℕ) : (sortIdx key n).Perm (List.range n) := by
  have h := sortIdx_fold_perm key (List.range n) []
  rw [List.append_nil] at h
  exact h

/-- The nms priority order is a permutation of the confidence indices. -/
theorem nmsOrder_perm (s : Bool) (confidences : List ℚ) (boxes : List Box) :
    (nmsOrder s confidences boxes).Perm (List.range confidences.length) := by
  rw [nmsOrder]
  by_cases hs : s = true
  · rw [if_pos hs]
    exact sortIdx_perm _ _
  · rw [if_neg hs]
    exact sortIdx_perm _ _

/-- The reversed nms priority order has no duplicate indices. -/
theorem nmsOrder_reverse_nodup (s : Bool) (confidences : List ℚ) (boxes : List Box) :
    (nmsOrder s confidences boxes).reverse.Nodup := by
  rw [List.nodup_reverse]
  exact ((nmsOrder_perm s confidences boxes).nodup_iff).mpr (List.nodup_range _)

/-- Membership in the reversed nms priority order is exactly being a valid
confidence index. -/
theorem mem_nmsOrder_reverse (s : Bool) (confidences : List ℚ) (boxes : List Box)
    (x : ℕ) : x ∈ (nmsOrder s confidences boxes).reverse ↔ x < confidences.length := by
  rw [List.mem_reverse, (nmsOrder_perm s confidences boxes).mem_iff, List.mem_range]

/-- The binary relation every two distinct survivors of one `nms` run satisfy:
without masks, their box metric is strictly below the threshold; with masks,
their boxes do not positively overlap or their mask metric is at most the
threshold. -/
def survPair (m : String) (thr : ℚ) (boxes : List Box) (masks : Option (List Mask))
    (i j : ℕ) : Prop :=
  match masks with
  | none => boxMetricValue m (boxes.getD i default) (boxes.getD j default) < thr
  | some ms =>
    boxMetricValue m (boxes.getD i default) (boxes.getD j default) ≤ 0 ∨
      maskMetricValue m (ms.getD i default) (ms.getD j default) ≤ thr

/-- The survivor relation is symmetric. -/
theorem survPair_comm (m : String) (thr : ℚ) (boxes : List Box)
    (masks : Option (List Mask)) (i j : ℕ) (h : survPair m thr boxes masks i j) :
    survPair m thr boxes masks j i := by
  cases masks with
  | none =>
    simp only [survPair] at h ⊢
    rw [boxMetricValue_comm]
    exact h
  | some ms =>
    simp only [survPair] at h ⊢
    rcases h with h | h
    · left
      rw [boxMetricValue_comm]
      exact h
    · right
      rw [maskMetricValue_comm]
      exact h

/-- Every index kept by a filtering round stands in the survivor relation to
the popped index. -/
theorem mem_filterStep_survPair (m : String) (thr : ℚ) (boxes : List Box)
    (masks : Option (List Mask)) (idx : ℕ) (rest : List ℕ) (j : ℕ)
    (hj : j ∈ filterStep m thr boxes masks idx rest) :
    survPair m thr boxes masks idx j := by
  cases masks with
  | none =>
    have h := (List.mem_filter.mp hj).2
    simp only [decide_eq_true_eq] at h
    exact h
  | some ms =>
    simp only [filterStep] at hj
    split at hj
    · have h := (List.mem_filter.mp hj).2
      simp only [Bool.not_eq_eq_eq_not, Bool.not_true, Bool.and_eq_false_iff,
        decide_eq_false_iff_not, not_lt] at h
      simpa only [survPair] using h
    · rename_i hany
      have hmem := List.mem_filter.mp hj
      have hb : ¬ (0 < boxMetricValue m (boxes.getD idx default) (boxes.getD j default)) := by
        intro hpos
        exact hany (List.any_eq_true.mpr ⟨j, hmem.1, decide_eq_true hpos⟩)
      exact Or.inl (not_lt.mp hb)

/-- Soundness invariant of the `nms` loop: a successful run returns a
duplicate-free sublist of the pending indices whose distinct members pairwise
satisfy the survivor relation. -/
theorem nmsLoop_sound (m : String) (thr : ℚ) (boxes : List Box)
    (masks : Option (List Mask)) :
    ∀ (n : ℕ) (l : List ℕ), l.length ≤ n → l.Nodup → ∀ keep,
      nmsLoop m thr boxes masks l = .ok keep →
      keep.Nodup ∧ (∀ x, x ∈ keep → x ∈ l) ∧
        ∀ i, i ∈ keep → ∀ j, j ∈ keep → i ≠ j → survPair m thr boxes masks i j := by
  intro n
  induction n with
  | zero =>
    intro l hl _ keep hrun
    have hnil : l = [] := List.length_eq_zero.mp (Nat.le_zero.mp hl)
    subst hnil
    rw [nmsLoop_nil] at hrun
    have : keep = [] := by
      injection hrun with h
      exact h.symm
    subst this
    exact ⟨List.nodup_nil, by simp, by simp⟩
  | succ n ih =>
    intro l hl hnd keep hrun
    match l with
    | [] =>
      rw [nmsLoop_nil] at hrun
      have : keep = [] := by
        injection hrun with h
        exact h.symm
      subst this
      exact ⟨List.nodup_nil, by simp, by simp⟩
    | idx :: rest =>
      rw [nmsLoop_cons] at hrun
      by_cases hr : rest = []
      · rw [if_pos hr] at hrun
        have : keep = [idx] := by
          injection hrun with h
          exact h.symm
        subst this
        subst hr
        refine ⟨List.nodup_singleton idx, by simp, ?_⟩
        intro i hi j hj hne
        rw [List.mem_singleton] at hi hj
        exact absurd (hi.trans hj.symm) hne
      · rw [if_neg hr] at hrun
        by_cases hm : m = "IOU" ∨ m = "IOS"
        · rw [if_pos hm] at hrun
          cases hrec : nmsLoop m thr boxes masks (filterStep m thr boxes masks idx rest) with
          | error e =>
            rw [hrec] at hrun
            exact absurd hrun (by simp [Except.map])
          | ok kept =>
            rw [hrec] at hrun
            simp only [Except.map] at hrun
            have hkeep : keep = idx :: kept := by
              injection hrun with h
              exact h.symm
            subst hkeep
            have hsub := filterStep_sublist m thr boxes masks idx rest
            have hndc := List.nodup_cons.mp hnd
            have hnd' : (filterStep m thr boxes masks idx rest).Nodup :=
              List.Nodup.sublist hsub hndc.2
            have hlen' : (filterStep m thr boxes masks idx rest).length ≤ n := by
              have h1 := filterStep_length_le m thr boxes masks idx rest
              have h2 : rest.length + 1 ≤ n + 1 := by simpa using hl
              omega
            obtain ⟨knd, ksub, kpair⟩ := ih _ hlen' hnd' kept hrec
            have hidx_not : idx ∉ kept := by
              intro hmem
              exact hndc.1 (hsub.subset (ksub _ hmem))
            refine ⟨List.nodup_cons.mpr ⟨hidx_not, knd⟩, ?_, ?_⟩
            · intro x hx
              rcases List.mem_cons.mp hx with hx | hx
              · exact hx ▸ List.mem_cons_self idx rest
              · exact List.mem_cons_of_mem idx (hsub.subset (ksub _ hx))
            · intro i hi j hj hne
              rcases List.mem_cons.mp hi with hi' | hi'
              · rcases List.mem_cons.mp hj with hj' | hj'
                · exact absurd (hi'.trans hj'.symm) hne
                · subst hi'
                  exact mem_filterStep_survPair m thr boxes masks i rest j (ksub _ hj')
              · rcases List.mem_cons.mp hj with hj' | hj'
                · subst hj'
                  exact survPair_comm m thr boxes masks j i
                    (mem_filterStep_survPair m thr boxes masks j rest i (ksub _ hi'))
                · exact kpair i hi' j hj' hne
        · rw [if_neg hm] at hrun
          exact absurd hrun (by simp)

/-- If the pending indices already pairwise satisfy the survivor relation (and
the threshold is positive whenever masks are present), no round of the `nms`
loop suppresses anything: the loop returns the pending list itself. -/
theorem nmsLoop_no_suppress (m : String) (thr : ℚ) (boxes : List Box)
    (masks : Option (List Mask)) (hm : m = "IOU" ∨ m = "IOS")
    (hthr : ∀ ms, masks = some ms → 0 < thr) :
    ∀ (n : ℕ) (l : List ℕ), l.length ≤ n → l.Nodup →
      (∀ i, i ∈ l → ∀ j, j ∈ l → i ≠ j → survPair m thr boxes masks i j) →
      nmsLoop m thr boxes masks l = .ok l := by
  intro n
  induction n with
  | zero =>
    intro l hl _ _
    have hnil : l = [] := List.length_eq_zero.mp (Nat.le_zero.mp hl)
    subst hnil
    exact nmsLoop_nil m thr boxes masks
  | succ n ih =>
    intro l hl hnd hgood
    match l with
    | [] => exact nmsLoop_nil m thr boxes masks
    | idx :: rest =>
      rw [nmsLoop_cons]
      by_cases hr : rest = []
      · rw [if_pos hr, hr]
      · rw [if_neg hr, if_pos hm]
        have hndc := List.nodup_cons.mp hnd
        have hidx_mem : idx ∈ idx :: rest := List.mem_cons_self idx rest
        have hpair : ∀ j, j ∈ rest → survPair m thr boxes masks idx j := by
          intro j hj
          have hne : idx ≠ j := fun h => hndc.1 (h ▸ hj)
          exact hgood idx hidx_mem j (List.mem_cons_of_mem idx hj) hne
        have hfs : filterStep m thr boxes masks idx rest = rest := by
          cases masks with
          | none =>
            apply List.filter_eq_self.mpr
            intro j hj
            exact decide_eq_true (hpair j hj)
          | some ms =>
            simp only [filterStep]
            split
            · apply List.filter_eq_self.mpr
              intro j hj
              have hp := hpair j hj
              simp only [survPair] at hp
              simp only [Bool.not_eq_eq_eq_not, Bool.not_true, Bool.and_eq_false_iff,
                decide_eq_false_iff_not, not_lt]
              exact hp
            · apply List.filter_eq_self.mpr
              intro j hj
              rename_i hany
              have hb : ¬ (0 < boxMetricValue m (boxes.getD idx default) (boxes.getD j default)) := by
                intro hpos
                exact hany (List.any_eq_true.mpr ⟨j, hj, decide_eq_true hpos⟩)
              have hpos : (0 : ℚ) < thr := hthr ms rfl
              exact decide_eq_true (lt_of_le_of_lt (not_lt.mp hb) hpos)
        rw [hfs]
        have hlen : rest.length ≤ n := by
          have : rest.length + 1 ≤ n + 1 := by simpa using hl
          omega
        have hrest : nmsLoop m thr boxes masks rest = .ok rest := by
          apply ih rest hlen hndc.2
          intro i hi j hj hne
          exact hgood i (List.mem_cons_of_mem idx hi) j (List.mem_cons_of_mem idx hj) hne
        rw [hrest]
        rfl

/-- Translating `getD` through `map` at a valid index. -/
theorem getD_map_of_lt {α β : Type} (f : α → β) (l : List α) (n : ℕ) (d : α) (d' : β)
    (h : n < l.length) : (l.map f).getD n d' = f (l.getD n d) := by
  have hl : n < (l.map f).length := by simpa using h
  rw [List.getD_eq_getElem _ _ hl, List.getD_eq_getElem _ _ h, List.getElem_map]

/-- Soundness of `nms`: a successful run returns duplicate-free valid indices
whose distinct members pairwise satisfy the survivor relation. -/
theorem nms_sound (confidences : List ℚ) (boxes : List Box) (m : String) (thr : ℚ)
    (masks : Option (List Mask)) (sorter : Bool) (keep : List ℕ)
    (hrun : nms confidences boxes m thr masks sorter = .ok keep) :
    keep.Nodup ∧ (∀ x, x ∈ keep → x < confidences.length) ∧
      ∀ i, i ∈ keep → ∀ j, j ∈ keep → i ≠ j → survPair m thr boxes masks i j := by
  rw [nms] at hrun
  by_cases hb : boxes.length = 0
  · rw [if_pos hb] at hrun
    have : keep = [] := by
      injection hrun with h
      exact h.symm
    subst this
    exact ⟨List.nodup_nil, by simp, by simp⟩
  · rw [if_neg hb] at hrun
    obtain ⟨knd, ksub, kpair⟩ := nmsLoop_sound m thr boxes masks _ _ (le_refl _)
      (nmsOrder_reverse_nodup sorter confidences boxes) keep hrun
    refine ⟨knd, ?_, kpair⟩
    intro x hx
    exact (mem_nmsOrder_reverse sorter confidences boxes x).mp (ksub x hx)

/-- C1: with match_metric IOU or IOS and masks absent, any two distinct
indices in the list returned by nms have box-metric value (IoU resp. IoS)
strictly below nms_threshold: no two survivors of box-only suppression overlap
at or above the threshold. -/
theorem nms_box_only_survivors_strictly_below
    (confidences : List ℚ) (boxes : List Box) (match_metric : String)
    (nms_threshold : ℚ) (sorter : Bool) (keep : List ℕ)
    (hmetric : match_metric = "IOU" ∨ match_metric = "IOS")
    (hrun : nms confidences boxes match_metric nms_threshold none sorter = .ok keep)
    (i j : ℕ) (hi : i ∈ keep) (hj : j ∈ keep) (hne : i ≠ j) :
    boxMetricValue match_metric (boxes.getD i default) (boxes.getD j default) <
      nms_threshold := by
  obtain ⟨-, -, kpair⟩ :=
    nms_sound confidences boxes match_metric nms_threshold none sorter keep hrun
  have h := kpair i hi j hj hne
  simpa only [survPair] using h

/-- Witness for C1: a concrete box-only run keeping two disjoint boxes, whose
mutual IoU is indeed strictly below the threshold 1/2. -/
theorem nms_box_only_survivors_strictly_below_witness :
    boxMetricValue "IOU" (([⟨0, 0, 1, 1⟩, ⟨5, 5, 6, 6⟩] : List Box).getD 0 default)
      (([⟨0, 0, 1, 1⟩, ⟨5, 5, 6, 6⟩] : List Box).getD 1 default) < 1/2 := by
  apply nms_box_only_survivors_strictly_below [9/10, 8/10] [⟨0, 0, 1, 1⟩, ⟨5, 5, 6, 6⟩]
    "IOU" (1/2) false [0, 1] (Or.inl rfl) ?_ 0 1 (by simp) (by simp) (by decide)
  norm_num [nms, nmsLoop, nmsOrder, sortIdx, insertAsc, keyLt, nmsRounds, filterStep,
    boxMetricValue, interArea, area, List.range_succ, Except.map]

/-- C4 (amended): nms is idempotent whenever masks are absent or the threshold
is positive: re-running nms on the sub-lists selected by its own output, with
the same metric and threshold, returns every index of that output. -/
theorem nms_idempotent
    (confidences : List ℚ) (boxes : List Box) (match_metric : String) (thr : ℚ)
    (masks : Option (List Mask)) (sorter sorter2 : Bool) (keep : List ℕ)
    (hmetric : match_metric = "IOU" ∨ match_metric = "IOS")
    (hthr : masks = none ∨ 0 < thr)
    (hrun : nms confidences boxes match_metric thr masks sorter = .ok keep) :
    ∃ keep2, nms (keep.map fun i => confidences.getD i 0)
        (keep.map fun i => boxes.getD i default) match_metric thr
        (masks.map fun ms => keep.map fun i => ms.getD i default) sorter2 = .ok keep2 ∧
      ∀ x, x < keep.length → x ∈ keep2 := by
  obtain ⟨knd, -, kpair⟩ :=
    nms_sound confidences boxes match_metric thr masks sorter keep hrun
  by_cases hk : keep.length = 0
  · refine ⟨[], ?_, ?_⟩
    · rw [nms, if_pos (by simpa using hk)]
    · intro x hx
      omega
  · rw [nms, if_neg (by simpa using hk)]
    have hlenc : (keep.map fun i => confidences.getD i 0).length = keep.length :=
      List.length_map _ _
    have hgood : ∀ a, a ∈ (nmsOrder sorter2 (keep.map fun i => confidences.getD i 0)
          (keep.map fun i => boxes.getD i default)).reverse →
        ∀ b, b ∈ (nmsOrder sorter2 (keep.map fun i => confidences.getD i 0)
          (keep.map fun i => boxes.getD i default)).reverse → a ≠ b →
        survPair match_metric thr (keep.map fun i => boxes.getD i default)
          (masks.map fun ms => keep.map fun i => ms.getD i default) a b := by
      intro a ha b hb hab
      have ha' : a < keep.length := by
        have h := (mem_nmsOrder_reverse _ _ _ a).mp ha
        rw [hlenc] at h
        exact h
      have hb' : b < keep.length := by
        have h := (mem_nmsOrder_reverse _ _ _ b).mp hb
        rw [hlenc] at h
        exact h
      have hmem_a : keep.getD a 0 ∈ keep := by
        rw [List.getD_eq_getElem _ _ ha']
        exact List.getElem_mem ha'
      have hmem_b : keep.getD b 0 ∈ keep := by
        rw [List.getD_eq_getElem _ _ hb']
        exact List.getElem_mem hb'
      have hne : keep.getD a 0 ≠ keep.getD b 0 := by
        rw [List.getD_eq_getElem _ _ ha', List.getD_eq_getElem _ _ hb']
        intro h
        exact hab (knd.getElem_inj_iff.mp h)
      have hpair := kpair _ hmem_a _ hmem_b hne
      cases masks with
      | none =>
        simp only [Option.map_none', survPair] at hpair ⊢
        rw [getD_map_of_lt (fun i => boxes.getD i default) keep a 0 default ha',
          getD_map_of_lt (fun i => boxes.getD i default) keep b 0 default hb']
        exact hpair
      | some ms =>
        simp only [Option.map_some', survPair] at hpair ⊢
        rw [getD_map_of_lt (fun i => boxes.getD i default) keep a 0 default ha',
          getD_map_of_lt (fun i => boxes.getD i default) keep b 0 default hb',
          getD_map_of_lt (fun i => ms.getD i default) keep a 0 default ha',
          getD_map_of_lt (fun i => ms.getD i default) keep b 0 default hb']
        exact hpair
    have hthr' : ∀ ms', (masks.map fun ms => keep.map fun i => ms.getD i default) = some ms' →
        (0 : ℚ) < thr := by
      intro ms' hms'
      cases masks with
      | none => exact absurd hms' (by simp)
      | some ms =>
        rcases hthr with h | h
        · exact absurd h (by simp)
        · exact h
    have hloop := nmsLoop_no_suppress match_metric thr
      (keep.map fun i => boxes.getD i default)
      (masks.map fun ms => keep.map fun i => ms.getD i default) hmetric hthr'
      (nmsOrder sorter2 (keep.map fun i => confidences.getD i 0)
        (keep.map fun i => boxes.getD i default)).reverse.length
      (nmsOrder sorter2 (keep.map fun i => confidences.getD i 0)
        (keep.map fun i => boxes.getD i default)).reverse
      (le_refl _) (nmsOrder_reverse_nodup _ _ _) hgood
    refine ⟨_, hloop, ?_⟩
    intro x hx
    apply (mem_nmsOrder_reverse _ _ _ x).mpr
    rw [hlenc]
    exact hx

set_option maxHeartbeats 1600000 in
/-- Counterexample to C4 as stated: with masks present and threshold 0, a run
keeps indices 0 and 1 (their boxes are disjoint, so the mask-aware round never
evaluates them against each other), yet re-running nms on exactly the
sub-lists selected by that output returns only [0]: index 1 of the first
output is suppressed on the second pass. -/
theorem nms_idempotence_fails_counterexample :
    nms [9/10, 8/10, 7/10]
        [⟨0, 0, 10, 10⟩, ⟨20, 20, 30, 30⟩, ⟨0, 0, 10, 10⟩] "IOU" 0
        (some [[[true, false]], [[false, true]], [[true, false]]]) false = .ok [0, 1] ∧
      nms ([0, 1].map fun i => ([9/10, 8/10, 7/10] : List ℚ).getD i 0)
        ([0, 1].map fun i =>
          ([⟨0, 0, 10, 10⟩, ⟨20, 20, 30, 30⟩, ⟨0, 0, 10, 10⟩] : List Box).getD i default)
        "IOU" 0
        ((some [[[true, false]], [[false, true]], [[true, false]]]).map fun ms =>
          [0, 1].map fun i => ms.getD i default) false = .ok [0] ∧
      (1 : ℕ) ∉ ([0] : List ℕ) := by
  refine ⟨?_, ?_, by decide⟩
  · norm_num [nms, nmsLoop, nmsOrder, sortIdx, insertAsc, keyLt, nmsRounds, filterStep,
      boxMetricValue, interArea, area, maskMetricValue, maskIoU, maskInter, maskUnion,
      List.range_succ, Except.map, List.count_cons, List.count_nil, List.cons_ne_nil]
  · norm_num [nms, nmsLoop, nmsOrder, sortIdx, insertAsc, keyLt, nmsRounds, filterStep,
      boxMetricValue, interArea, area, maskMetricValue, maskIoU, maskInter, maskUnion,
      List.range_succ, Except.map, List.count_cons, List.count_nil, List.cons_ne_nil]

/-- Witness for the amended C4 at a concrete box-only run. -/
theorem nms_idempotent_witness :
    ∃ keep2, nms ([0, 1].map fun i => ([9/10, 8/10] : List ℚ).getD i 0)
        ([0, 1].map fun i => ([⟨0, 0, 1, 1⟩, ⟨5, 5, 6, 6⟩] : List Box).getD i default)
        "IOU" (1/2) ((none : Option (List Mask)).map fun ms =>
          [0, 1].map fun i => ms.getD i default) false = .ok keep2 ∧
      ∀ x, x < ([0, 1] : List ℕ).length → x ∈ keep2 := by
  apply nms_idempotent [9/10, 8/10] [⟨0, 0, 1, 1⟩, ⟨5, 5, 6, 6⟩] "IOU" (1/2) none
    false false [0, 1] (Or.inl rfl) (Or.inl rfl)
  norm_num [nms, nmsLoop, nmsOrder, sortIdx, insertAsc, keyLt, nmsRounds, filterStep,
    boxMetricValue, interArea, area, List.range_succ, Except.map]

/-- The stable argsort of two indices. -/
theorem sortIdx_two (key : ℕ → ℚ × ℚ) :
    sortIdx key 2 = if keyLt (key 1) (key 0) then [1, 0] else [0, 1] := rfl

/-- Counterexample to C3 as stated: two boxes whose IoU is exactly equal to
the threshold 1/2; box-only nms keeps only the higher-priority one, so
suppression DOES occur at the exact threshold boundary. -/
theorem nms_boundary_counterexample :
    boxMetricValue "IOU" ⟨0, 0, 3, 1⟩ ⟨1, 0, 4, 1⟩ = 1/2 ∧
      nms [9/10, 8/10] [⟨0, 0, 3, 1⟩, ⟨1, 0, 4, 1⟩] "IOU" (1/2) none false = .ok [0] := by
  constructor
  · norm_num [boxMetricValue, interArea, area]
  · norm_num [nms, nmsLoop, nmsOrder, sortIdx, insertAsc, keyLt, nmsRounds, filterStep,
      boxMetricValue, interArea, area, List.range_succ, Except.map, List.cons_ne_nil]

/-- C3 (amended): for every pair of boxes whose box metric is exactly equal to
nms_threshold, running nms without masks keeps exactly ONE of the two boxes:
the box-only filter keeps only indices strictly below the threshold, so
suppression at the exact boundary does occur. -/
theorem nms_two_boxes_at_threshold_suppresses
    (c0 c1 : ℚ) (b0 b1 : Box) (match_metric : String) (thr : ℚ) (sorter : Bool)
    (hmetric : match_metric = "IOU" ∨ match_metric = "IOS")
    (heq : boxMetricValue match_metric b0 b1 = thr) :
    ∃ k, nms [c0, c1] [b0, b1] match_metric thr none sorter = .ok [k] := by
  have hrev : (nmsOrder sorter [c0, c1] [b0, b1]).reverse = [0, 1] ∨
      (nmsOrder sorter [c0, c1] [b0, b1]).reverse = [1, 0] := by
    rw [nmsOrder]
    by_cases hs : sorter = true
    · rw [if_pos hs]
      rw [show ([c0, c1] : List ℚ).length = 2 from rfl, sortIdx_two]
      by_cases h : keyLt ((fun k => (round1 (([c0, c1] : List ℚ).getD k 0),
          area (([b0, b1] : List Box).getD k default))) 1)
          ((fun k => (round1 (([c0, c1] : List ℚ).getD k 0),
          area (([b0, b1] : List Box).getD k default))) 0) = true
      · rw [if_pos h]
        left
        rfl
      · rw [if_neg h]
        right
        rfl
    · rw [if_neg hs]
      rw [show ([c0, c1] : List ℚ).length = 2 from rfl, sortIdx_two]
      by_cases h : keyLt ((fun k => (([c0, c1] : List ℚ).getD k 0, (0 : ℚ))) 1)
          ((fun k => (([c0, c1] : List ℚ).getD k 0, (0 : ℚ))) 0) = true
      · rw [if_pos h]
        left
        rfl
      · rw [if_neg h]
        right
        rfl
  rcases hrev with h | h
  · refine ⟨0, ?_⟩
    rw [nms, if_neg (by simp), h, nmsLoop_cons, if_neg (by simp), if_pos hmetric]
    have hfs : filterStep match_metric thr [b0, b1] none 0 [1] = [] := by
      simp only [filterStep, List.filter, List.getD_cons_zero, List.getD_cons_succ, heq,
        lt_self_iff_false, decide_False]
    rw [hfs, nmsLoop_nil]
    rfl
  · refine ⟨1, ?_⟩
    rw [nms, if_neg (by simp), h, nmsLoop_cons, if_neg (by simp), if_pos hmetric]
    have heq' : boxMetricValue match_metric b1 b0 = thr := by
      rw [boxMetricValue_comm]
      exact heq
    have hfs : filterStep match_metric thr [b0, b1] none 1 [0] = [] := by
      simp only [filterStep, List.filter, List.getD_cons_zero, List.getD_cons_succ, heq',
        lt_self_iff_false, decide_False]
    rw [hfs, nmsLoop_nil]
    rfl

/-- Witness for the amended C3 at the concrete boundary pair. -/
theorem nms_two_boxes_at_threshold_suppresses_witness :
    ∃ k, nms [9/10, 8/10] [⟨0, 0, 3, 1⟩, ⟨1, 0, 4, 1⟩] "IOU" (1/2) none false = .ok [k] := by
  apply nms_two_boxes_at_threshold_suppresses (9/10) (8/10) ⟨0, 0, 3, 1⟩ ⟨1, 0, 4, 1⟩
    "IOU" (1/2) false (Or.inl rfl)
  norm_num [boxMetricValue, interArea, area]

/-- Counterexample to C9 as stated: with the unknown metric name "IOC", nms
returns normally (an ok result, not an error) on the empty input and on a
single-element input, because both return before the metric name is inspected. -/
theorem nms_unknown_metric_counterexample :
    nms [] [] "IOC" (1/2) none false = .ok [] ∧
      nms [9/10] [⟨0, 0, 1, 1⟩] "IOC" (1/2) none false = .ok [0] := by
  constructor
  · rfl
  · rfl

/-- C9 (amended): with match_metric neither IOU nor IOS, nms fails with the
invalid-configuration error as soon as the parallel input lists have at least
two entries; empty and single-element box lists instead return normally
before the metric name is ever inspected. -/
theorem nms_unknown_metric_error
    (confidences : List ℚ) (boxes : List Box) (match_metric : String) (thr : ℚ)
    (masks : Option (List Mask)) (sorter : Bool)
    (hiou : match_metric ≠ "IOU") (hios : match_metric ≠ "IOS")
    (hlen : confidences.length = boxes.length) (h2 : 2 ≤ boxes.length) :
    nms confidences boxes match_metric thr masks sorter =
      .error "Unknown matching metric" := by
  rw [nms, if_neg (by omega)]
  have hlen2 : 2 ≤ (nmsOrder sorter confidences boxes).reverse.length := by
    rw [List.length_reverse, (nmsOrder_perm sorter confidences boxes).length_eq,
      List.length_range]
    omega
  rcases hcase : (nmsOrder sorter confidences boxes).reverse with _ | ⟨a, _ | ⟨b, rest⟩⟩
  · rw [hcase] at hlen2
    simp at hlen2
  · rw [hcase] at hlen2
    simp at hlen2
  · rw [nmsLoop_cons, if_neg (by simp), if_neg ?_]
    intro h
    rcases h with h | h
    · exact hiou h
    · exact hios h

/-- Witness for the amended C9: a two-box call with metric name "IOC" fails. -/
theorem nms_unknown_metric_error_witness :
    nms [1/2, 1/2] [⟨0, 0, 1, 1⟩, ⟨2, 2, 3, 3⟩] "IOC" (1/2) none true =
      .error "Unknown matching metric" := by
  apply nms_unknown_metric_error
  · decide
  · decide
  · rfl
  · simp

/-- Counterexample to C2 as stated: for the 1500×1000 image tiled at 700×700
with 25% overlap, the implemented formula computes steps_x = 2 and
steps_y = 1, not the claimed steps_x = 3 and steps_y = 2. -/
theorem tiling_1500x1000_steps_counterexample :
    steps_count 1500 700 25 = 2 ∧ steps_count 1000 700 25 = 1 ∧
      ¬(steps_count 1500 700 25 = 3 ∧ steps_count 1000 700 25 = 2) := by
  have h1 : steps_count 1500 700 25 = 2 := by norm_num [steps_count, pyInt]
  have h2 : steps_count 1000 700 25 = 1 := by norm_num [steps_count, pyInt]
  refine ⟨h1, h2, ?_⟩
  intro h
  rw [h1] at h
  exact absurd h.1 (by norm_num)

/-- C2 (amended): the 1500×1000 image tiled at 700×700 with 25% overlap gives
steps_x = 2, steps_y = 1, a 1225×700 canvas, and exactly two tiles, at offsets
(0,0) and (525,0). -/
theorem tiling_1500x1000_exact :
    steps_count 1500 700 25 = 2 ∧ steps_count 1000 700 25 = 1 ∧
      canvas_dim 2 700 25 = 1225 ∧ canvas_dim 1 700 25 = 700 ∧
      get_crops_xy 1000 1500 700 700 25 25 = [⟨1, 0, 0⟩, ⟨2, 525, 0⟩] := by
  have h1 : steps_count 1000 700 25 = 1 := by norm_num [steps_count, pyInt]
  have h2 : steps_count 1500 700 25 = 2 := by norm_num [steps_count, pyInt]
  have h3 : canvas_dim 1 700 25 = 700 := by norm_num [canvas_dim, pyRound]
  have h4 : canvas_dim 2 700 25 = 1225 := by norm_num [canvas_dim, pyRound]
  refine ⟨h2, h1, h4, h3, ?_⟩
  rw [get_crops_xy]
  simp only [h1, h2, h3, h4]
  norm_num [crop_row, crop_step, pyInt, List.range_succ, List.flatMap_cons,
    List.flatMap_nil, List.foldl]

/-- Membership transfer through a left fold whose step only adds elements
described by a predicate. -/
theorem foldl_mem_of_step {β : Type} (Q : ℕ → β → Prop) :
    ∀ (l : List ℕ) (step : List β → ℕ → List β) (acc : List β),
      (∀ acc2 j y, j ∈ l → y ∈ step acc2 j → y ∈ acc2 ∨ Q j y) →
      ∀ y, y ∈ l.foldl step acc → y ∈ acc ∨ ∃ j, j ∈ l ∧ Q j y := by
  intro l
  induction l with
  | nil =>
    intro step acc _ y hy
    exact Or.inl hy
  | cons j rest ih =>
    intro step acc hstep y hy
    rw [List.foldl_cons] at hy
    have hrec := ih step (step acc j)
      (fun acc2 j' y' hj' hy' => hstep acc2 j' y' (List.mem_cons_of_mem j hj') hy') y hy
    rcases hrec with hmem | ⟨j', hj', hQ⟩
    · rcases hstep acc j y (List.mem_cons_self j rest) hmem with hacc | hQ
      · exact Or.inl hacc
      · exact Or.inr ⟨j, List.mem_cons_self j rest, hQ⟩
    · exact Or.inr ⟨j', List.mem_cons_of_mem j hj', hQ⟩

/-- A member of one `crop_step` output is an old member or the appended crop
with the truncated offsets. -/
theorem crop_step_mem (shape_x shape_y : ℤ) (cross_koef_x cross_koef_y : ℚ)
    (x_new y_new : ℤ) (i : ℕ) (acc2 : List CropRec) (j : ℕ) (z : CropRec)
    (hz : z ∈ crop_step shape_x shape_y cross_koef_x cross_koef_y x_new y_new i acc2 j) :
    z ∈ acc2 ∨ (z.x_start = pyInt ((shape_x : ℚ) * (j : ℚ) * cross_koef_x) ∧
      z.y_start = pyInt ((shape_y : ℚ) * (i : ℚ) * cross_koef_y)) := by
  rw [crop_step] at hz
  split at hz
  · exact Or.inl hz
  · split at hz
    · exact Or.inl hz
    · rcases List.mem_append.mp hz with hm | hm
      · exact Or.inl hm
      · rw [List.mem_singleton] at hm
        subst hm
        exact Or.inr ⟨rfl, rfl⟩

/-- A member of one `crop_row` output is an old member or a crop with
truncated offsets at some column of that row. -/
theorem crop_row_mem (shape_x shape_y : ℤ) (cross_koef_x cross_koef_y : ℚ)
    (x_new y_new x_steps : ℤ) (acc : List CropRec) (i : ℕ) (z : CropRec)
    (hz : z ∈ crop_row shape_x shape_y cross_koef_x cross_koef_y x_new y_new x_steps acc i) :
    z ∈ acc ∨ ∃ j, j ∈ List.range x_steps.toNat ∧
      z.x_start = pyInt ((shape_x : ℚ) * (j : ℚ) * cross_koef_x) ∧
      z.y_start = pyInt ((shape_y : ℚ) * (i : ℚ) * cross_koef_y) := by
  rw [crop_row] at hz
  exact foldl_mem_of_step _ _ _ acc
    (fun acc2 j y _ hy => crop_step_mem shape_x shape_y cross_koef_x cross_koef_y
      x_new y_new i acc2 j y hy) z hz

/-- Counterexample to C5 as stated: tiling an 88×88 image with 50×50 tiles and
25% overlap on both axes places the second tile at x_start = 37 (Python
int(37.5), truncation), while rounding 50 * 1 * 0.75 = 37.5 to the nearest
integer yields 38. -/
theorem crop_offsets_rounding_counterexample :
    get_crops_xy 88 88 50 50 25 25 = [⟨1, 0, 0⟩, ⟨2, 37, 0⟩, ⟨3, 0, 37⟩, ⟨4, 37, 37⟩] ∧
      round ((50 : ℚ) * 1 * (1 - 25/100)) = 38 ∧ (37 : ℤ) ≠ 38 := by
  refine ⟨?_, ?_, by norm_num⟩
  · have h1 : steps_count 88 50 25 = 2 := by norm_num [steps_count, pyInt]
    have h2 : canvas_dim 2 50 25 = 88 := by norm_num [canvas_dim, pyRound]
    rw [get_crops_xy]
    simp only [h1, h2]
    norm_num [crop_row, crop_step, pyInt, List.range_succ, List.flatMap_cons,
      List.flatMap_nil, List.foldl]
  · rw [round_eq]
    norm_num

/-- C5 (amended): every crop generated by `get_crops_xy` has offsets
`x_start = int(tile_width * col * stride_x)` and
`y_start = int(tile_height * row * stride_y)`: the fractional stride product
is truncated by Python `int()`, not rounded to the nearest integer. -/
theorem crop_offsets_truncated (h w shape_x shape_y : ℤ) (overlap_x overlap_y : ℚ)
    (c : CropRec) (hc : c ∈ get_crops_xy h w shape_x shape_y overlap_x overlap_y) :
    ∃ i j : ℕ, (i : ℤ) < steps_count h shape_y overlap_y ∧
      (j : ℤ) < steps_count w shape_x overlap_x ∧
      c.x_start = pyInt ((shape_x : ℚ) * (j : ℚ) * (1 - overlap_x / 100)) ∧
      c.y_start = pyInt ((shape_y : ℚ) * (i : ℚ) * (1 - overlap_y / 100)) := by
  rw [get_crops_xy] at hc
  have hmain := foldl_mem_of_step _ _ _ _
    (fun acc2 i y _ hy => crop_row_mem shape_x shape_y (1 - overlap_x / 100)
      (1 - overlap_y / 100) _ _ _ acc2 i y hy) c hc
  rcases hmain with hnil | ⟨i, hi, j, hj, hx, hy⟩
  · exact absurd hnil (List.not_mem_nil c)
  · refine ⟨i, j, ?_, ?_, hx, hy⟩
    · have := List.mem_range.mp hi
      omega
    · have := List.mem_range.mp hj
      omega

/-- Witness for the amended C5 at the second tile of the 88×88 example. -/
theorem crop_offsets_truncated_witness :
    ∃ i j : ℕ, (i : ℤ) < steps_count 88 50 25 ∧ (j : ℤ) < steps_count 88 50 25 ∧
      (CropRec.mk 2 37 0).x_start = pyInt ((50 : ℚ) * (j : ℚ) * (1 - 25 / 100)) ∧
      (CropRec.mk 2 37 0).y_start = pyInt ((50 : ℚ) * (i : ℚ) * (1 - 25 / 100)) := by
  apply crop_offsets_truncated 88 88 50 50 25 25 ⟨2, 37, 0⟩
  have h1 : steps_count 88 50 25 = 2 := by norm_num [steps_count, pyInt]
  have h2 : canvas_dim 2 50 25 = 88 := by norm_num [canvas_dim, pyRound]
  rw [get_crops_xy]
  simp only [h1, h2]
  norm_num [crop_row, crop_step, pyInt, List.range_succ, List.flatMap_cons,
    List.flatMap_nil, List.foldl]

/-- C6: with intelligent_sorter enabled, candidates are ordered ascending by
(confidence rounded to one decimal, area); for confidences 0.81 and 0.84 (both
rounding to 0.8) with areas 2000 and 500 respectively, the area-2000 candidate
(index 0) is processed first, and the run keeps it while suppressing the
raw-higher-confidence area-500 one. -/
theorem intelligent_sorter_bucket_then_area :
    round1 (81/100) = round1 (84/100) ∧
      area ⟨0, 0, 100, 20⟩ = 2000 ∧ area ⟨0, 0, 25, 20⟩ = 500 ∧
      (nmsOrder true [81/100, 84/100] [⟨0, 0, 100, 20⟩, ⟨0, 0, 25, 20⟩]).reverse = [0, 1] ∧
      nms [81/100, 84/100] [⟨0, 0, 100, 20⟩, ⟨0, 0, 25, 20⟩] "IOS" (1/2) none true =
        .ok [0] := by
  have hr1 : round1 (81/100) = 4/5 := by norm_num [round1, pyRound, Int.fract]
  have hr2 : round1 (21/25) = 4/5 := by norm_num [round1, pyRound, Int.fract]
  refine ⟨?_, by norm_num [area], by norm_num [area], ?_, ?_⟩
  · norm_num [hr1, hr2]
  · norm_num [nmsOrder, sortIdx, insertAsc, keyLt, hr1, hr2, area, List.range_succ]
  · norm_num [nms, nmsLoop, nmsOrder, sortIdx, insertAsc, keyLt, hr1, hr2, nmsRounds,
      filterStep, boxMetricValue, interArea, area, List.range_succ, Except.map,
      List.cons_ne_nil, ios_ne_iou]

/-- C8: for every crop offset and every locally detected box, the canvas-frame
box equals the local box plus the additive offset
[x_start, y_start, x_start, y_start], with no scaling; in particular the local
box (10,10,20,20) at offset (50,50) remaps to exactly (60,60,70,70). -/
theorem calculate_real_values_additive :
    (∀ (detected_xyxy : List BoxI) (x_start y_start : ℤ) (i : ℕ),
      (calculate_real_values detected_xyxy x_start y_start)[i]? =
        detected_xyxy[i]?.map fun b =>
          (b.1 + x_start, b.2.1 + y_start, b.2.2.1 + x_start, b.2.2.2 + y_start)) ∧
      calculate_real_values [(10, 10, 20, 20)] 50 50 = [(60, 60, 70, 70)] := by
  constructor
  · intro l x y i
    rw [calculate_real_values, List.getElem?_map]
  · decide

/-- A pixel-disjoint mask pair has mask metric 0 for either metric name. -/
theorem maskMetricValue_eq_zero_of_inter_zero (m : String) (a b : Mask)
    (h : maskInter a b = 0) : maskMetricValue m a b = 0 := by
  rw [maskMetricValue, maskIoU, maskIoS, h]
  norm_num

/-- C7: when masks are provided and the two candidates have positive box-level
overlap (whatever its size relative to the threshold) but pixel-disjoint
binary masks, both candidates survive: the mask-aware round suppresses only on
the mask-level metric exceeding the (nonnegative) threshold. -/
theorem mask_aware_disjoint_masks_both_survive
    (c0 c1 : ℚ) (b0 b1 : Box) (m0 m1 : Mask) (match_metric : String) (thr : ℚ)
    (sorter : Bool)
    (hmetric : match_metric = "IOU" ∨ match_metric = "IOS")
    (hthr : 0 ≤ thr)
    (hoverlap : 0 < boxMetricValue match_metric b0 b1)
    (hdisjoint : maskInter m0 m1 = 0) :
    ∃ keep, nms [c0, c1] [b0, b1] match_metric thr (some [m0, m1]) sorter = .ok keep ∧
      0 ∈ keep ∧ 1 ∈ keep := by
  have hrev : (nmsOrder sorter [c0, c1] [b0, b1]).reverse = [0, 1] ∨
      (nmsOrder sorter [c0, c1] [b0, b1]).reverse = [1, 0] := by
    rw [nmsOrder]
    by_cases hs : sorter = true
    · rw [if_pos hs]
      rw [show ([c0, c1] : List ℚ).length = 2 from rfl, sortIdx_two]
      by_cases hklt : keyLt ((fun k => (round1 (([c0, c1] : List ℚ).getD k 0),
          area (([b0, b1] : List Box).getD k default))) 1)
          ((fun k => (round1 (([c0, c1] : List ℚ).getD k 0),
          area (([b0, b1] : List Box).getD k default))) 0) = true
      · rw [if_pos hklt]
        left
        rfl
      · rw [if_neg hklt]
        right
        rfl
    · rw [if_neg hs]
      rw [show ([c0, c1] : List ℚ).length = 2 from rfl, sortIdx_two]
      by_cases hklt : keyLt ((fun k => (([c0, c1] : List ℚ).getD k 0, (0 : ℚ))) 1)
          ((fun k => (([c0, c1] : List ℚ).getD k 0, (0 : ℚ))) 0) = true
      · rw [if_pos hklt]
        left
        rfl
      · rw [if_neg hklt]
        right
        rfl
  have hmm01 : maskMetricValue match_metric m0 m1 = 0 :=
    maskMetricValue_eq_zero_of_inter_zero match_metric m0 m1 hdisjoint
  have hmm10 : maskMetricValue match_metric m1 m0 = 0 := by
    rw [maskMetricValue_comm]
    exact hmm01
  have hbm10 : 0 < boxMetricValue match_metric b1 b0 := by
    rw [boxMetricValue_comm]
    exact hoverlap
  have hnotthr0 : ¬ thr < maskMetricValue match_metric m0 m1 := by
    rw [hmm01]
    exact not_lt.mpr hthr
  have hnotthr1 : ¬ thr < maskMetricValue match_metric m1 m0 := by
    rw [hmm10]
    exact not_lt.mpr hthr
  rcases hrev with hcase | hcase
  · refine ⟨[0, 1], ?_, by simp, by simp⟩
    rw [nms, if_neg (by simp), hcase, nmsLoop_cons, if_neg (by simp), if_pos hmetric]
    have hany : ([1] : List ℕ).any (fun j => decide (0 < boxMetricValue match_metric
        (([b0, b1] : List Box).getD 0 default)
        (([b0, b1] : List Box).getD j default))) = true := by
      simp only [List.any_cons, List.any_nil, Bool.or_false, List.getD_cons_zero,
        List.getD_cons_succ]
      exact decide_eq_true hoverlap
    have hfs : filterStep match_metric thr [b0, b1] (some [m0, m1]) 0 [1] = [1] := by
      simp only [filterStep]
      rw [if_pos hany]
      apply List.filter_eq_self.mpr
      intro j hj
      rw [List.mem_singleton] at hj
      subst hj
      simp only [List.getD_cons_zero, List.getD_cons_succ]
      rw [decide_eq_false hnotthr0]
      simp
    rw [hfs, nmsLoop_cons, if_pos rfl]
    rfl
  · refine ⟨[1, 0], ?_, by simp, by simp⟩
    rw [nms, if_neg (by simp), hcase, nmsLoop_cons, if_neg (by simp), if_pos hmetric]
    have hany : ([0] : List ℕ).any (fun j => decide (0 < boxMetricValue match_metric
        (([b0, b1] : List Box).getD 1 default)
        (([b0, b1] : List Box).getD j default))) = true := by
      simp only [List.any_cons, List.any_nil, Bool.or_false, List.getD_cons_zero,
        List.getD_cons_succ]
      exact decide_eq_true hbm10
    have hfs : filterStep match_metric thr [b0, b1] (some [m0, m1]) 1 [0] = [0] := by
      simp only [filterStep]
      rw [if_pos hany]
      apply List.filter_eq_self.mpr
      intro j hj
      rw [List.mem_singleton] at hj
      subst hj
      simp only [List.getD_cons_zero, List.getD_cons_succ]
      rw [decide_eq_false hnotthr1]
      simp
    rw [hfs, nmsLoop_cons, if_pos rfl]
    rfl

/-- Witness for C7: two identical boxes (box IoU 1, far above the threshold
1/2) carrying disjoint diagonal masks both survive. -/
theorem mask_aware_disjoint_masks_both_survive_witness :
    ∃ keep, nms [9/10, 8/10] [⟨0, 0, 2, 2⟩, ⟨0, 0, 2, 2⟩] "IOU" (1/2)
        (some [[[true, false], [false, true]], [[false, true], [true, false]]]) false =
        .ok keep ∧ 0 ∈ keep ∧ 1 ∈ keep := by
  apply mask_aware_disjoint_masks_both_survive (9/10) (8/10) ⟨0, 0, 2, 2⟩ ⟨0, 0, 2, 2⟩
    [[true, false], [false, true]] [[false, true], [true, false]] "IOU" (1/2) false
    (Or.inl rfl) (by norm_num)
  · norm_num [boxMetricValue, interArea, area]
  · decide

/-- A crop whose masks field is None makes its aggregation step fail, whatever
the other fields hold. -/
theorem combinate_step_error (acc : List ℚ × List BoxI × List Mask × List ℤ)
    (c : CropDet) (hmask : c.detected_masks_real = none) :
    ∃ e, combinate_step acc c = .error e := by
  rw [combinate_step]
  split
  · exact ⟨_, rfl⟩
  · split
    · exact ⟨_, rfl⟩
    · rw [hmask] at *
      split
      · exact ⟨_, rfl⟩
      · rename_i heq
        exact absurd heq (by simp [pyExtend])

/-- The aggregation loop fails whenever some crop's masks field is None. -/
theorem combinate_fold_error :
    ∀ (crops : List CropDet) (acc : List ℚ × List BoxI × List Mask × List ℤ),
      (∃ c, c ∈ crops ∧ c.detected_masks_real = none) →
      ∃ e, combinate_fold acc crops = .error e := by
  intro crops
  induction crops with
  | nil =>
    intro acc ⟨c, hc, _⟩
    exact absurd hc (List.not_mem_nil c)
  | cons d rest ih =>
    intro acc ⟨c, hc, hmask⟩
    rcases List.mem_cons.mp hc with hcd | hcrest
    · subst hcd
      obtain ⟨e, he⟩ := combinate_step_error acc c hmask
      refine ⟨e, ?_⟩
      rw [combinate_fold, he]
    · cases hstep : combinate_step acc d with
      | error e =>
        refine ⟨e, ?_⟩
        rw [combinate_fold, hstep]
      | ok acc2 =>
        obtain ⟨e, he⟩ := ih acc2 ⟨c, hcrest, hmask⟩
        refine ⟨e, ?_⟩
        rw [combinate_fold, hstep]
        exact he

/-- C10: combinate_detections requires every crop's detection fields to be
populated: for every crop list containing a crop whose detected_masks_real is
None (its state after construction, and _detect_objects never stores any
results), aggregation fails with an error instead of contributing an empty
detection for that crop. -/
theorem combinate_detections_error_of_none_masks
    (crops : List CropDet) (c : CropDet) (hc : c ∈ crops)
    (hmask : c.detected_masks_real = none) :
    ∃ e, combinate_detections crops = .error e := by
  rw [combinate_detections]
  exact combinate_fold_error crops ([], [], [], []) ⟨c, hc, hmask⟩

/-- Witness for C10: a single freshly-constructed-style crop whose masks field
is None (the others populated) makes aggregation fail. -/
theorem combinate_detections_error_of_none_masks_witness :
    ∃ e, combinate_detections
      [⟨some [9/10], some [(0, 0, 1, 1)], none, some [2]⟩] = .error e := by
  apply combinate_detections_error_of_none_masks
    [⟨some [9/10], some [(0, 0, 1, 1)], none, some [2]⟩]
    ⟨some [9/10], some [(0, 0, 1, 1)], none, some [2]⟩
  · exact List.mem_singleton.mpr rfl
  · rfl
